import Mathlib

/-
Verification of the intelligent-emotion-system backend against its
specification.  The relevant Python code (backend/text_model.py,
backend/main.py) is shallowly embedded below: Python strings become Lean
`String`s, floats become `ℚ`, Python dicts (whose insertion order matters for
`max` tie-breaking) become insertion-ordered association lists
`List (String × ℚ)`, and the external transformer classifier is a parameter
`String → List (String × ℚ)` giving per-chunk label/score lists.
-/

namespace EmotionSys

/- ## Python string primitives -/

/-- Python `str.lower()` (ASCII case folding, which covers every emotion
label occurring in the program). -/
def pyLower (s : String) : String := String.mk (s.toList.map Char.toLower)

/-- Python `str.strip()`: drop leading and trailing whitespace. -/
def pyStrip (s : String) : String :=
  String.mk (((s.toList.dropWhile Char.isWhitespace).reverse.dropWhile Char.isWhitespace).reverse)

/-- Worker for Python `str.split()` (no arguments): split on whitespace runs,
dropping empty pieces.  `cur` holds the current word reversed. -/
def splitWsGo : List Char → List Char → List String
  | [], cur => if cur.isEmpty then [] else [String.mk cur.reverse]
  | c :: cs, cur =>
    if c.isWhitespace then
      (if cur.isEmpty then [] else [String.mk cur.reverse]) ++ splitWsGo cs []
    else splitWsGo cs (c :: cur)

/-- Python `str.split()` with no arguments. -/
def pySplitWs (s : String) : List String := splitWsGo s.toList []

/-- Python `' '.join(s.split())`: collapse internal whitespace to single spaces. -/
def collapseWs (s : String) : String := String.intercalate " " (pySplitWs s)

/-- Worker for Python `str.replace`: replace non-overlapping occurrences of
`pat` (nonempty) by `rep`, scanning left to right; the replacement text is not
rescanned.  `fuel` only forces termination; it is always at least the length
of the scanned list plus one, and every step consumes at least one character. -/
def replaceGo : ℕ → List Char → List Char → List Char → List Char
  | _, _, _, [] => []
  | 0, _, _, s => s
  | fuel + 1, pat, rep, c :: cs =>
    if pat ≠ [] ∧ pat = (c :: cs).take pat.length then
      rep ++ replaceGo fuel pat rep ((c :: cs).drop pat.length)
    else c :: replaceGo fuel pat rep cs

/-- Python `s.replace(pat, rep)` for a nonempty `pat`. -/
def pyReplace (s pat rep : String) : String :=
  String.mk (replaceGo (s.toList.length + 1) pat.toList rep.toList s.toList)

/- ## Transcript cleanup (backend/main.py, predict_speech lines 171-179) -/

/-- Filler token list from `predict_speech`:
`fillers = ["uh", "umm", "um", "er", "ah", "like", "you know"]`. -/
def fillers : List String := ["uh", "umm", "um", "er", "ah", "like", "you know"]

/-- The filler-stripping loop:
`for f in fillers: t = t.replace(f+' ',' ').replace(' '+f+' ',' ').replace(' '+f,' ')`. -/
def stripFillers (t0 : String) : String :=
  fillers.foldl
    (fun t f =>
      pyReplace (pyReplace (pyReplace t (f ++ " ") " ") (" " ++ f ++ " ") " ") (" " ++ f) " ")
    t0

/-- Transcript post-processing of `predict_speech`:
`t = ' '.join((transcript or '').split())`, the filler loop, then `t.strip()`. -/
def cleanTranscript (transcript : String) : String :=
  pyStrip (stripFillers (collapseWs transcript))

/- ## Chunker (backend/text_model.py, `_split_text`) -/

/-- Characters treated as sentence enders by the lookbehind `(?<=[\.!?])`. -/
def isSentEnd (c : Char) : Bool := c = '.' || c = '!' || c = '?'

/-- Worker for `re.split(r"(?<=[\.!?])\s+|\n+", text.strip())`.  Scans left to
right; at each position the first alternative (whitespace run preceded by a
sentence ender) is tried, then the second (a newline run).  `prev` is the
character immediately before the scan position (after a separator it is some
whitespace character, which is never a sentence ender, so we pass a space);
`cur` is the current piece reversed.  `fuel` only forces termination: it always
exceeds the number of remaining characters and every step consumes at least one. -/
def reSplitGo : ℕ → List Char → Option Char → List Char → List String
  | _, [], _, cur => [String.mk cur.reverse]
  | 0, s, _, cur => [String.mk (cur.reverse ++ s)]
  | fuel + 1, c :: cs, prev, cur =>
    if (prev.elim false isSentEnd) && c.isWhitespace then
      String.mk cur.reverse :: reSplitGo fuel ((c :: cs).dropWhile Char.isWhitespace) (some ' ') []
    else if c = '\n' then
      String.mk cur.reverse ::
        reSplitGo fuel ((c :: cs).dropWhile (fun x => x == '\n')) (some ' ') []
    else reSplitGo fuel cs (some c) (c :: cur)

/-- `sentences = re.split(r"(?<=[\.!?])\s+|\n+", text.strip())`. -/
def splitSentences (text : String) : List String :=
  reSplitGo ((pyStrip text).toList.length + 1) (pyStrip text).toList none []

/-- The greedy chunk-packing loop of `_split_text`.  `chunks` and `buf` are the
accumulators of the Python loop. -/
def buildChunks (maxLen : ℕ) : List String → List String → String → List String
  | [], chunks, buf => if buf = "" then chunks else chunks ++ [buf]
  | s :: rest, chunks, buf =>
    if s = "" then buildChunks maxLen rest chunks buf
    else if buf.length + s.length + 1 ≤ maxLen then
      buildChunks maxLen rest chunks (pyStrip (buf ++ " " ++ s))
    else if buf = "" then buildChunks maxLen rest chunks s
    else buildChunks maxLen rest (chunks ++ [buf]) s

/-- `_split_text(text, max_len)`: sentence split, greedy packing, and the
`return chunks or [text]` fallback (note: the fallback returns the original
`text` argument verbatim, not its stripped form). -/
def splitText (text : String) (maxLen : ℕ) : List String :=
  let cs := buildChunks maxLen (splitSentences text) [] ""
  if cs = [] then [text] else cs

/- ## Score aggregation (backend/text_model.py, `predict` / `predict_with_scores`) -/

/-- A classifier output / score table: label-score pairs.  Used both for a
single chunk's `return_all_scores=True` output and for the `totals` dict
(insertion-ordered, as in Python). -/
abbrev Scores := List (String × ℚ)

/-- Sum of the values of a score table (`sum(totals.values())`). -/
def sumVals (l : Scores) : ℚ := (l.map Prod.snd).sum

/-- `totals[lbl] = totals.get(lbl, 0.0) + sc` on an insertion-ordered dict:
update the first matching key, else append at the end. -/
def updateAdd : Scores → String → ℚ → Scores
  | [], lbl, sc => [(lbl, sc)]
  | (k, v) :: rest, lbl, sc =>
    if k = lbl then (k, v + sc) :: rest else (k, v) :: updateAdd rest lbl sc

/-- The inner loop `for cls in item: totals[lbl] = totals.get(lbl,0.0)+sc`. -/
def addItem (tot : Scores) (item : Scores) : Scores :=
  item.foldl (fun t p => updateAdd t p.1 p.2) tot

/-- The outer loop `for item in all_scores: ...` building `totals` from the
per-chunk score lists. -/
def aggregateScores (items : List Scores) : Scores := items.foldl addItem []

/-- One step of Python `max(..., key=lambda x: x[1])`: keep the current best
unless the new element is strictly greater (so the first maximum wins ties). -/
def maxStep (best q : String × ℚ) : String × ℚ := if best.2 < q.2 then q else best

/-- Python `max(l, key=lambda x: x[1])` on a nonempty list (junk on `[]`,
where Python would raise `ValueError`). -/
def maxBySnd : Scores → String × ℚ
  | [] => ("", 0)
  | p :: rest => rest.foldl maxStep p

/-- First-match lookup in a score table (Python dict indexing). -/
def lookupQ : Scores → String → Option ℚ
  | [], _ => none
  | (k, v) :: rest, lbl => if k = lbl then some v else lookupQ rest lbl

/-- `totals.get(lbl, 0)`. -/
def getQ (l : Scores) (lbl : String) : ℚ := (lookupQ l lbl).getD 0

/-- The keys of a score table, in order. -/
def keysOf (l : Scores) : List String := l.map Prod.fst

/-- Total score that `item` contributes to key `k` (sum over all pairs of
`item` carrying that label). -/
def sumKey (item : Scores) (k : String) : ℚ :=
  ((item.filter (fun p => p.1 == k)).map Prod.snd).sum

/-- `totals` as computed by the multi-chunk path of `predict` and by
`predict_with_scores`: classify every chunk of `t` and fold all label/score
pairs into one insertion-ordered dict. -/
def totalsOf (clfAll : String → Scores) (t : String) : Scores :=
  aggregateScores ((splitText t 300).map clfAll)

/-- `total_sum = sum(totals.values()) or 1.0`. -/
def totalSumOf (clfAll : String → Scores) (t : String) : ℚ :=
  if sumVals (totalsOf clfAll t) = 0 then 1 else sumVals (totalsOf clfAll t)

/-- `probs = {k: v / total_sum for k, v in totals.items()}`. -/
def probsOf (clfAll : String → Scores) (t : String) : Scores :=
  (totalsOf clfAll t).map (fun p => (p.1, p.2 / totalSumOf clfAll t))

/-- `predict(text)` from backend/text_model.py.  `clfTop` is the pipeline
called on a single chunk (top label/score); `clfAll` is the pipeline with
`return_all_scores=True`.  Mirrors: strip; empty fallback `("neutral", 0.6)`;
single short chunk classified verbatim; otherwise aggregate, normalize and
take the argmax. -/
def predict (clfTop : String → String × ℚ) (clfAll : String → Scores)
    (text : String) : String × ℚ :=
  if pyStrip text = "" then ("neutral", 0.6)
  else if (splitText (pyStrip text) 300).length = 1 ∧
      ((splitText (pyStrip text) 300).headI).length ≤ 300 then
    clfTop ((splitText (pyStrip text) 300).headI)
  else if totalsOf clfAll (pyStrip text) = [] then ("neutral", 0.6)
  else ((maxBySnd (totalsOf clfAll (pyStrip text))).1,
        (maxBySnd (totalsOf clfAll (pyStrip text))).2 / totalSumOf clfAll (pyStrip text))

/-- `predict_with_scores(text)` from backend/text_model.py.  Returns `none`
where Python raises (`max` over an empty dict). -/
def predict_with_scores (clfAll : String → Scores) (text : String) :
    Option (String × ℚ × Scores) :=
  if pyStrip text = "" then some ("neutral", 0.6, [("neutral", 1)])
  else if probsOf clfAll (pyStrip text) = [] then none
  else some ((maxBySnd (probsOf clfAll (pyStrip text))).1,
             (maxBySnd (probsOf clfAll (pyStrip text))).2,
             probsOf clfAll (pyStrip text))

/- ## Stored log records and the /predict-text logging path (backend/main.py) -/

/-- A stored emotion-log document as read back from the store: both
`detected_emotion` and `confidence` may be absent or null (`d.get(...)`). -/
structure Doc where
  detected_emotion : Option String
  confidence : Option ℚ
deriving DecidableEq, Inhabited

/-- An `EmotionLog` record as written by `/predict-text` (and, with the
transcript as message, by `/predict-speech`). -/
structure EmotionLog where
  user_id : Option String
  message : String
  detected_emotion : String
  confidence : ℚ
deriving DecidableEq

/-- The record that `/predict-text` inserts into `emotion_logs`: `400` (hence
`none`, nothing stored) on empty text; otherwise the label/confidence of
`predict_with_scores` (when `all_scores`) or `predict`.  A `none` from
`predict_with_scores` is the uncaught `ValueError` path: the request fails and
nothing is stored. -/
def predictTextLog (clfTop : String → String × ℚ) (clfAll : String → Scores)
    (uid : Option String) (text : String) (allScores : Bool) : Option EmotionLog :=
  if text = "" then none
  else if allScores then
    match predict_with_scores clfAll text with
    | none => none
    | some r => some ⟨uid, text, r.1, r.2.1⟩
  else some ⟨uid, text, (predict clfTop clfAll text).1, (predict clfTop clfAll text).2⟩

/- ## History aggregation and the response heuristic (backend/main.py, respond) -/

/-- `positive = set(["joy", "love", "gratitude", "relief", "optimism"])`. -/
def positiveSet : List String := ["joy", "love", "gratitude", "relief", "optimism"]

/-- `negative = set(["sadness", "anger", "fear", "disgust", "frustration",
"boredom", "stress", "stressed"])`. -/
def negativeSet : List String :=
  ["sadness", "anger", "fear", "disgust", "frustration", "boredom", "stress", "stressed"]

/-- Polarity of an (already lower-cased) label. -/
inductive Polarity | pos | neg | neut
deriving DecidableEq

/-- Classification used by `respond`: `if e in positive ... elif e in negative
... else neutral` on the lower-cased label. -/
def respondPolarity (e : String) : Polarity :=
  if e ∈ positiveSet then Polarity.pos
  else if e ∈ negativeSet then Polarity.neg
  else Polarity.neut

/-- `e = (d.get('detected_emotion') or '').lower()`. -/
def docLabel (d : Doc) : String := pyLower (d.detected_emotion.getD "")

/-- `c = float(d.get('confidence') or 0.5); w = max(0.2, min(c, 1.0))`:
a missing, null or zero confidence is replaced by the 0.5 default (Python
falsiness) before clamping into [0.2, 1.0]. -/
def docWeight (d : Doc) : ℚ :=
  let c : ℚ :=
    match d.confidence with
    | none => 0.5
    | some v => if v = 0 then 0.5 else v
  max 0.2 (min c 1)

/-- One iteration of the `for d in docs` loop of `respond`, adding the doc's
clamped weight to its polarity bucket `(positive, negative, neutral)`. -/
def stepPol (acc : ℚ × ℚ × ℚ) (d : Doc) : ℚ × ℚ × ℚ :=
  match respondPolarity (docLabel d) with
  | Polarity.pos => (acc.1 + docWeight d, acc.2.1, acc.2.2)
  | Polarity.neg => (acc.1, acc.2.1 + docWeight d, acc.2.2)
  | Polarity.neut => (acc.1, acc.2.1, acc.2.2 + docWeight d)

/-- The `counts` dictionary of `respond` after the weighting loop. -/
def polarityCounts (docs : List Doc) : ℚ × ℚ × ℚ := docs.foldl stepPol (0, 0, 0)

/-- `total = counts['positive'] + counts['negative'] + counts['neutral']`. -/
def totalWeight (docs : List Doc) : ℚ :=
  (polarityCounts docs).1 + (polarityCounts docs).2.1 + (polarityCounts docs).2.2

/-- `pos_pct = counts['positive'] / total if total else 0`. -/
def posPct (docs : List Doc) : ℚ :=
  if totalWeight docs = 0 then 0 else (polarityCounts docs).1 / totalWeight docs

/-- `neg_pct = counts['negative'] / total if total else 0`. -/
def negPct (docs : List Doc) : ℚ :=
  if totalWeight docs = 0 then 0 else (polarityCounts docs).2.1 / totalWeight docs

/-- The rule chain of `respond` producing `(response, reason)`, including the
`no-history` early return for an empty doc list. -/
def respondPair (docs : List Doc) : String × String :=
  if docs.isEmpty then ("Hello — how are you feeling today?", "no-history")
  else if negPct docs ≥ 0.6 then
    ("I notice you\x27ve been feeling down recently. I\x27m here to listen — would you like to talk about what\x27s bothering you?",
     "mostly-negative-history")
  else if posPct docs ≥ 0.6 then
    ("You seem to be doing well! Keep it up — anything you\x27d like to build on today?",
     "mostly-positive-history")
  else
    match respondPolarity (docLabel docs.headI) with
    | Polarity.pos =>
        ("You sounded happier recently — glad to hear that! Want suggestions to keep the momentum?",
         "recent-positive")
    | Polarity.neg =>
        ("I\x27m sorry you\x27re having a tough time. Would you like a breathing exercise or some resources?",
         "recent-negative")
    | Polarity.neut =>
        if |posPct docs - negPct docs| ≤ 0.2 ∧ posPct docs + negPct docs ≥ 0.4 then
          ("Your emotions seem mixed lately. Would a short grounding exercise or a quick journal help organize thoughts?",
           "mixed")
        else
          ("How are you feeling today? I can help track and remember important things for you.",
           "neutral")

/-- Outcome of the external `user_memory.insert_one` call. -/
inductive WriteOutcome | ok | fail
deriving DecidableEq

/-- What the `respond` handler returns plus what it did to the memory store:
whether the mood-alert insert was attempted, and whether a record was actually
appended. -/
structure RespondOut where
  response : String
  reason : String
  memAttempted : Bool
  memAppended : Bool
deriving DecidableEq

/-- The `respond` handler: early `no-history` return (which skips the memory
block), then the rule chain, then — only when `neg_pct >= 0.8` — a best-effort
`user_memory.insert_one` whose failure is swallowed by `try/except: pass`. -/
def respondImpl (docs : List Doc) (w : WriteOutcome) : RespondOut :=
  if docs.isEmpty then
    ⟨(respondPair docs).1, (respondPair docs).2, false, false⟩
  else
    ⟨(respondPair docs).1, (respondPair docs).2,
     if negPct docs ≥ 0.8 then true else false,
     if negPct docs ≥ 0.8 then
       (match w with | WriteOutcome.ok => true | WriteOutcome.fail => false)
     else false⟩

/-- The response heuristic exactly as the specification words it, as a function
of (has history, PolarityMix percentages, polarity of the most recent label):
rules tested in the spec's order 1-6. -/
def specReason (hasHistory : Bool) (pos neg : ℚ) (lastPol : Polarity) : String :=
  if hasHistory = false then "no-history"
  else if neg ≥ 0.6 then "mostly-negative-history"
  else if pos ≥ 0.6 then "mostly-positive-history"
  else if lastPol = Polarity.pos then "recent-positive"
  else if lastPol = Polarity.neg then "recent-negative"
  else if |pos - neg| ≤ 0.2 ∧ pos + neg ≥ 0.4 then "mixed"
  else "neutral"

/- ## Insights summarizer (backend/main.py, insights_summary) -/

/-- Insights positive set: `set([..., "happy"])` — note the extra `"happy"`
compared to `respond`. -/
def insightsPositiveSet : List String :=
  ["joy", "love", "gratitude", "relief", "optimism", "happy"]

/-- Insights negative set: `respond`'s set plus `"sad"` and `"angry"`. -/
def insightsNegativeSet : List String :=
  ["sadness", "anger", "fear", "disgust", "frustration", "boredom", "stress", "stressed",
   "sad", "angry"]

/-- Classification used by the `mix` of `insights_summary` on a (lower-cased)
counted label. -/
def insightsPolarity (e : String) : Polarity :=
  if e ∈ insightsPositiveSet then Polarity.pos
  else if e ∈ insightsNegativeSet then Polarity.neg
  else Polarity.neut

/-- `e = (d.get('detected_emotion') or '').lower() or 'unknown'`. -/
def insightsLabel (d : Doc) : String :=
  if docLabel d = "" then "unknown" else docLabel d

/-- The `counts` dict of `insights_summary`: occurrences per label
(`counts[e] = counts.get(e, 0) + 1`), insertion-ordered. -/
def insightsCounts (docs : List Doc) : Scores :=
  docs.foldl (fun acc d => updateAdd acc (insightsLabel d) 1) []

/-- The `mix_counts` tallies of `insights_summary` (unweighted count ratios
before division by the total). -/
def insightsMixCounts (docs : List Doc) : ℚ × ℚ × ℚ :=
  (insightsCounts docs).foldl
    (fun acc pr =>
      match insightsPolarity pr.1 with
      | Polarity.pos => (acc.1 + pr.2, acc.2.1, acc.2.2)
      | Polarity.neg => (acc.1, acc.2.1 + pr.2, acc.2.2)
      | Polarity.neut => (acc.1, acc.2.1, acc.2.2 + pr.2))
    (0, 0, 0)

/- ## Helper lemmas about score tables -/

theorem sumVals_nil : sumVals [] = 0 := rfl

theorem sumVals_cons (p : String × ℚ) (l : Scores) :
    sumVals (p :: l) = p.2 + sumVals l := by
  simp [sumVals]

theorem sumVals_updateAdd (t : Scores) (lbl : String) (sc : ℚ) :
    sumVals (updateAdd t lbl sc) = sumVals t + sc := by
  induction t with
  | nil => simp [updateAdd, sumVals]
  | cons p rest ih =>
    obtain ⟨k, v⟩ := p
    by_cases h : k = lbl
    · simp only [updateAdd, if_pos h, sumVals_cons]
      ring
    · simp only [updateAdd, if_neg h, sumVals_cons, ih]
      ring

theorem addItem_cons (tot : Scores) (p : String × ℚ) (rest : Scores) :
    addItem tot (p :: rest) = addItem (updateAdd tot p.1 p.2) rest := rfl

theorem sumVals_addItem (item tot : Scores) :
    sumVals (addItem tot item) = sumVals tot + sumVals item := by
  induction item generalizing tot with
  | nil => simp [addItem, sumVals]
  | cons p rest ih =>
    rw [addItem_cons, ih, sumVals_updateAdd, sumVals_cons]
    ring

theorem sumVals_foldl_addItem (items : List Scores) (acc : Scores) :
    sumVals (items.foldl addItem acc) = sumVals acc + (items.map sumVals).sum := by
  induction items generalizing acc with
  | nil => simp
  | cons it rest ih =>
    rw [List.foldl_cons, ih, sumVals_addItem, List.map_cons, List.sum_cons]
    ring

theorem sumVals_aggregate (items : List Scores) :
    sumVals (aggregateScores items) = (items.map sumVals).sum := by
  have h := sumVals_foldl_addItem items []
  simpa [aggregateScores, sumVals] using h

theorem updateAdd_nonneg {t : Scores} {lbl : String} {sc : ℚ}
    (ht : ∀ q ∈ t, 0 ≤ q.2) (hsc : 0 ≤ sc) :
    ∀ q ∈ updateAdd t lbl sc, 0 ≤ q.2 := by
  induction t with
  | nil =>
    intro q hq
    simp only [updateAdd, List.mem_singleton] at hq
    simpa [hq] using hsc
  | cons p rest ih =>
    obtain ⟨k, v⟩ := p
    intro q hq
    by_cases h : k = lbl
    · simp only [updateAdd, if_pos h] at hq
      rcases List.mem_cons.mp hq with h1 | h1
      · have hv : 0 ≤ v := ht (k, v) (List.mem_cons_self _ _)
        simpa [h1] using add_nonneg hv hsc
      · exact ht q (List.mem_cons_of_mem _ h1)
    · simp only [updateAdd, if_neg h] at hq
      rcases List.mem_cons.mp hq with h1 | h1
      · exact ht q (h1 ▸ List.mem_cons_self _ _)
      · exact ih (fun r hr => ht r (List.mem_cons_of_mem _ hr)) q h1

theorem addItem_nonneg {tot item : Scores}
    (htot : ∀ q ∈ tot, 0 ≤ q.2) (hitem : ∀ q ∈ item, 0 ≤ q.2) :
    ∀ q ∈ addItem tot item, 0 ≤ q.2 := by
  induction item generalizing tot with
  | nil => simpa [addItem] using htot
  | cons p rest ih =>
    rw [addItem_cons]
    exact ih
      (updateAdd_nonneg htot (hitem p (List.mem_cons_self _ _)))
      (fun q hq => hitem q (List.mem_cons_of_mem _ hq))

theorem foldl_addItem_nonneg {items : List Scores} {acc : Scores}
    (hacc : ∀ q ∈ acc, 0 ≤ q.2) (hitems : ∀ it ∈ items, ∀ q ∈ it, 0 ≤ q.2) :
    ∀ q ∈ items.foldl addItem acc, 0 ≤ q.2 := by
  induction items generalizing acc with
  | nil => simpa using hacc
  | cons it rest ih =>
    rw [List.foldl_cons]
    exact ih (addItem_nonneg hacc (hitems it (List.mem_cons_self _ _)))
      (fun r hr => hitems r (List.mem_cons_of_mem _ hr))

theorem aggregate_nonneg {items : List Scores}
    (hitems : ∀ it ∈ items, ∀ q ∈ it, 0 ≤ q.2) :
    ∀ q ∈ aggregateScores items, 0 ≤ q.2 :=
  foldl_addItem_nonneg (by simp) hitems

theorem keysOf_updateAdd (t : Scores) (lbl : String) (sc : ℚ) :
    keysOf (updateAdd t lbl sc) =
      if lbl ∈ keysOf t then keysOf t else keysOf t ++ [lbl] := by
  induction t with
  | nil => simp [updateAdd, keysOf]
  | cons p rest ih =>
    obtain ⟨k, v⟩ := p
    by_cases h : k = lbl
    · subst h
      simp [updateAdd, keysOf, List.mem_cons]
    · have hne : lbl ≠ k := fun hh => h hh.symm
      have hcons : lbl ∈ keysOf ((k, v) :: rest) ↔ lbl ∈ keysOf rest := by
        simp [keysOf, List.mem_cons, hne]
      have hk : keysOf ((k, v) :: rest) = k :: keysOf rest := by simp [keysOf]
      have hu : keysOf (updateAdd ((k, v) :: rest) lbl sc)
          = k :: keysOf (updateAdd rest lbl sc) := by
        simp [updateAdd, if_neg h, keysOf]
      rw [hu, ih]
      by_cases hm : lbl ∈ keysOf rest
      · rw [if_pos hm, if_pos (hcons.mpr hm), hk]
      · rw [if_neg hm, if_neg (fun hx => hm (hcons.mp hx)), hk]
        simp

theorem nodup_keys_updateAdd {t : Scores} (h : (keysOf t).Nodup)
    (lbl : String) (sc : ℚ) : (keysOf (updateAdd t lbl sc)).Nodup := by
  rw [keysOf_updateAdd]
  by_cases hm : lbl ∈ keysOf t
  · simpa [hm] using h
  · simpa [hm, List.nodup_append] using h

theorem mem_keysOf_updateAdd {t : Scores} {lbl k : String} {sc : ℚ}
    (h : k ∈ keysOf (updateAdd t lbl sc)) : k ∈ keysOf t ∨ k = lbl := by
  rw [keysOf_updateAdd] at h
  by_cases hm : lbl ∈ keysOf t
  · exact Or.inl (by simpa [hm] using h)
  · rw [if_neg hm] at h
    rcases List.mem_append.mp h with h1 | h1
    · exact Or.inl h1
    · exact Or.inr (by simpa using h1)

theorem mem_keysOf_addItem {tot item : Scores} {k : String}
    (h : k ∈ keysOf (addItem tot item)) : k ∈ keysOf tot ∨ k ∈ keysOf item := by
  induction item generalizing tot with
  | nil => exact Or.inl (by simpa [addItem] using h)
  | cons p rest ih =>
    rw [addItem_cons] at h
    rcases ih h with h1 | h1
    · rcases mem_keysOf_updateAdd h1 with h2 | h2
      · exact Or.inl h2
      · exact Or.inr (by simp [keysOf, h2])
    · exact Or.inr (by simp [keysOf] at h1 ⊢; exact Or.inr h1)

theorem nodup_keys_addItem {tot item : Scores} (h : (keysOf tot).Nodup) :
    (keysOf (addItem tot item)).Nodup := by
  induction item generalizing tot with
  | nil => simpa [addItem] using h
  | cons p rest ih => exact addItem_cons tot p rest ▸ ih (nodup_keys_updateAdd h p.1 p.2)

theorem nodup_keys_foldl_addItem {items : List Scores} {acc : Scores}
    (h : (keysOf acc).Nodup) : (keysOf (items.foldl addItem acc)).Nodup := by
  induction items generalizing acc with
  | nil => simpa using h
  | cons it rest ih => exact List.foldl_cons .. ▸ ih (nodup_keys_addItem h)

theorem nodup_keys_aggregate (items : List Scores) :
    (keysOf (aggregateScores items)).Nodup :=
  nodup_keys_foldl_addItem (by simp [keysOf])

theorem mem_keysOf_foldl_addItem {items : List Scores} {acc : Scores} {k : String}
    (h : k ∈ keysOf (items.foldl addItem acc)) :
    k ∈ keysOf acc ∨ ∃ it ∈ items, k ∈ keysOf it := by
  induction items generalizing acc with
  | nil => exact Or.inl (by simpa using h)
  | cons it rest ih =>
    rw [List.foldl_cons] at h
    rcases ih h with h1 | h1
    · rcases mem_keysOf_addItem h1 with h2 | h2
      · exact Or.inl h2
      · exact Or.inr ⟨it, List.mem_cons_self _ _, h2⟩
    · obtain ⟨it2, hit2, hk⟩ := h1
      exact Or.inr ⟨it2, List.mem_cons_of_mem _ hit2, hk⟩

theorem mem_keysOf_aggregate {items : List Scores} {k : String}
    (h : k ∈ keysOf (aggregateScores items)) : ∃ it ∈ items, k ∈ keysOf it := by
  rcases mem_keysOf_foldl_addItem h with h1 | h1
  · simp [keysOf] at h1
  · exact h1

theorem foldl_maxStep_mem (rest : Scores) (p : String × ℚ) :
    rest.foldl maxStep p ∈ p :: rest := by
  induction rest generalizing p with
  | nil => simp
  | cons q rest ih =>
    rw [List.foldl_cons]
    have hstep : maxStep p q = p ∨ maxStep p q = q := by
      unfold maxStep; split <;> simp
    rcases List.mem_cons.mp (ih (maxStep p q)) with h1 | h1
    · rcases hstep with h2 | h2 <;> rw [h1, h2] <;> simp
    · simp [h1]

theorem foldl_maxStep_ge (rest : Scores) (p : String × ℚ) :
    p.2 ≤ (rest.foldl maxStep p).2 ∧ ∀ q ∈ rest, q.2 ≤ (rest.foldl maxStep p).2 := by
  induction rest generalizing p with
  | nil => simp
  | cons q rest ih =>
    rw [List.foldl_cons]
    obtain ⟨ih1, ih2⟩ := ih (maxStep p q)
    have hp : p.2 ≤ (maxStep p q).2 := by
      unfold maxStep; split
      · exact le_of_lt (by assumption)
      · exact le_refl _
    have hq : q.2 ≤ (maxStep p q).2 := by
      unfold maxStep; split
      · exact le_refl _
      · exact le_of_not_lt (by assumption)
    refine ⟨le_trans hp ih1, ?_⟩
    intro r hr
    rcases List.mem_cons.mp hr with h1 | h1
    · rw [h1]
      exact le_trans hq ih1
    · exact ih2 r h1

theorem maxBySnd_mem {l : Scores} (h : l ≠ []) : maxBySnd l ∈ l := by
  cases l with
  | nil => exact absurd rfl h
  | cons p rest => exact foldl_maxStep_mem rest p

theorem maxBySnd_ge {l : Scores} {q : String × ℚ} (hq : q ∈ l) :
    q.2 ≤ (maxBySnd l).2 := by
  cases l with
  | nil => simp at hq
  | cons p rest =>
    rcases List.mem_cons.mp hq with h1 | h1
    · exact h1 ▸ (foldl_maxStep_ge rest p).1
    · exact (foldl_maxStep_ge rest p).2 q h1

theorem lookupQ_eq_some {l : Scores} (h : (keysOf l).Nodup) {p : String × ℚ}
    (hp : p ∈ l) : lookupQ l p.1 = some p.2 := by
  induction l with
  | nil => simp at hp
  | cons q rest ih =>
    obtain ⟨k, v⟩ := q
    have hk : keysOf ((k, v) :: rest) = k :: keysOf rest := by simp [keysOf]
    rw [hk] at h
    rcases List.mem_cons.mp hp with h1 | h1
    · subst h1
      simp [lookupQ]
    · have hne : k ≠ p.1 := by
        intro hkp
        exact (List.nodup_cons.mp h).1 (hkp ▸ List.mem_map_of_mem Prod.fst h1)
      simp only [lookupQ, if_neg hne]
      exact ih (List.nodup_cons.mp h).2 h1

theorem sumVals_nonneg {l : Scores} (h : ∀ q ∈ l, 0 ≤ q.2) : 0 ≤ sumVals l := by
  induction l with
  | nil => simp [sumVals]
  | cons q rest ih =>
    rw [sumVals_cons]
    exact add_nonneg (h q (List.mem_cons_self _ _))
      (ih fun r hr => h r (List.mem_cons_of_mem _ hr))

theorem mem_le_sumVals {l : Scores} (h : ∀ q ∈ l, 0 ≤ q.2) {p : String × ℚ}
    (hp : p ∈ l) : p.2 ≤ sumVals l := by
  induction l with
  | nil => simp at hp
  | cons q rest ih =>
    rw [sumVals_cons]
    rcases List.mem_cons.mp hp with h1 | h1
    · have h2 : 0 ≤ sumVals rest :=
        sumVals_nonneg fun r hr => h r (List.mem_cons_of_mem _ hr)
      rw [h1]
      linarith
    · have h2 : 0 ≤ q.2 := h q (List.mem_cons_self _ _)
      have h3 := ih (fun r hr => h r (List.mem_cons_of_mem _ hr)) h1
      linarith

theorem sumKey_cons (p : String × ℚ) (rest : Scores) (k : String) :
    sumKey (p :: rest) k = (if p.1 = k then p.2 else 0) + sumKey rest k := by
  by_cases h : p.1 = k <;> simp [sumKey, List.filter_cons, h]

theorem getQ_updateAdd (t : Scores) (lbl : String) (sc : ℚ) (k : String) :
    getQ (updateAdd t lbl sc) k = getQ t k + (if lbl = k then sc else 0) := by
  induction t with
  | nil =>
    by_cases h : lbl = k <;> simp [updateAdd, getQ, lookupQ, h]
  | cons p rest ih =>
    obtain ⟨k0, v⟩ := p
    by_cases h : k0 = lbl
    · subst h
      by_cases h2 : k0 = k
      · subst h2
        simp [updateAdd, getQ, lookupQ]
      · simp [updateAdd, getQ, lookupQ, h2]
    · by_cases h2 : k0 = k
      · subst h2
        have hlk : ¬lbl = k0 := fun hh => h hh.symm
        simp [updateAdd, h, getQ, lookupQ, hlk]
      · simp only [updateAdd, if_neg h, getQ, lookupQ, if_neg h2]
        exact ih

theorem getQ_addItem (item tot : Scores) (k : String) :
    getQ (addItem tot item) k = getQ tot k + sumKey item k := by
  induction item generalizing tot with
  | nil => simp [addItem, sumKey]
  | cons p rest ih =>
    rw [addItem_cons, ih, getQ_updateAdd, sumKey_cons]
    ring

theorem getQ_foldl_addItem (items : List Scores) (acc : Scores) (k : String) :
    getQ (items.foldl addItem acc) k
      = getQ acc k + (items.map (fun it => sumKey it k)).sum := by
  induction items generalizing acc with
  | nil => simp
  | cons it rest ih =>
    rw [List.foldl_cons, ih, getQ_addItem, List.map_cons, List.sum_cons]
    ring

theorem getQ_aggregate (items : List Scores) (k : String) :
    getQ (aggregateScores items) k = (items.map (fun it => sumKey it k)).sum := by
  have h := getQ_foldl_addItem items [] k
  simpa [aggregateScores, getQ, lookupQ] using h

theorem keysOf_map_scale (l : Scores) (S : ℚ) :
    keysOf (l.map fun p => (p.1, p.2 / S)) = keysOf l := by
  induction l with
  | nil => rfl
  | cons p rest ih => simp [keysOf] at ih ⊢

theorem sumVals_map_scale (l : Scores) (S : ℚ) :
    sumVals (l.map fun p => (p.1, p.2 / S)) = sumVals l / S := by
  induction l with
  | nil => simp [sumVals]
  | cons p rest ih =>
    rw [List.map_cons, sumVals_cons, sumVals_cons, ih, add_div]

theorem map_scale_nonneg {l : Scores} {S : ℚ} (hl : ∀ q ∈ l, 0 ≤ q.2)
    (hS : 0 ≤ S) : ∀ q ∈ l.map fun p => (p.1, p.2 / S), 0 ≤ q.2 := by
  intro q hq
  obtain ⟨p, hp, rfl⟩ := List.mem_map.mp hq
  exact div_nonneg (hl p hp) hS

theorem sum_map_one {α : Type} (l : List α) (f : α → ℚ) (h : ∀ x ∈ l, f x = 1) :
    (l.map f).sum = (l.length : ℚ) := by
  induction l with
  | nil => simp
  | cons x rest ih =>
    rw [List.map_cons, List.sum_cons, h x (List.mem_cons_self _ _),
      ih fun y hy => h y (List.mem_cons_of_mem _ hy), List.length_cons]
    push_cast
    ring

/- ## Helper lemmas about the chunker -/

theorem splitText_ne_nil (t : String) (n : ℕ) : splitText t n ≠ [] := by
  unfold splitText
  by_cases h : buildChunks n (splitSentences t) [] "" = [] <;> simp [h]

/- ## Helper lemmas about the history aggregation -/

theorem docWeight_pos (d : Doc) : 0 < docWeight d :=
  lt_of_lt_of_le (by norm_num) (le_max_left _ _)

theorem sum3_stepPol (acc : ℚ × ℚ × ℚ) (d : Doc) :
    (stepPol acc d).1 + (stepPol acc d).2.1 + (stepPol acc d).2.2
      = acc.1 + acc.2.1 + acc.2.2 + docWeight d := by
  unfold stepPol
  cases respondPolarity (docLabel d) <;> simp <;> ring

theorem foldl_stepPol_total (ds : List Doc) (acc : ℚ × ℚ × ℚ) :
    (ds.foldl stepPol acc).1 + (ds.foldl stepPol acc).2.1 + (ds.foldl stepPol acc).2.2
      = acc.1 + acc.2.1 + acc.2.2 + (ds.map docWeight).sum := by
  induction ds generalizing acc with
  | nil => simp
  | cons d rest ih =>
    rw [List.foldl_cons, ih, sum3_stepPol, List.map_cons, List.sum_cons]
    ring

theorem totalWeight_eq_sum (docs : List Doc) :
    totalWeight docs = (docs.map docWeight).sum := by
  have h := foldl_stepPol_total docs (0, 0, 0)
  simpa [totalWeight, polarityCounts] using h

theorem totalWeight_cons (d : Doc) (ds : List Doc) :
    totalWeight (d :: ds) = docWeight d + totalWeight ds := by
  rw [totalWeight_eq_sum, totalWeight_eq_sum, List.map_cons, List.sum_cons]

theorem sum_docWeight_nonneg (ds : List Doc) : 0 ≤ (ds.map docWeight).sum := by
  induction ds with
  | nil => simp
  | cons e rest ih =>
    rw [List.map_cons, List.sum_cons]
    exact add_nonneg (le_of_lt (docWeight_pos e)) ih

theorem totalWeight_pos {docs : List Doc} (h : docs ≠ []) : 0 < totalWeight docs := by
  cases docs with
  | nil => exact absurd rfl h
  | cons d rest =>
    rw [totalWeight_cons]
    have h1 : 0 ≤ totalWeight rest := totalWeight_eq_sum rest ▸ sum_docWeight_nonneg rest
    linarith [docWeight_pos d]

theorem negPct_nil : negPct [] = 0 := by
  simp [negPct, totalWeight, polarityCounts]

/- ## Helper lemmas about totalsOf / probsOf -/

theorem totalsOf_nonneg {clfAll : String → Scores} {t : String}
    (h : ∀ c ∈ splitText t 300, ∀ p ∈ clfAll c, 0 ≤ p.2) :
    ∀ q ∈ totalsOf clfAll t, 0 ≤ q.2 := by
  apply aggregate_nonneg
  intro it hit
  obtain ⟨c, hc, rfl⟩ := List.mem_map.mp hit
  exact h c hc

theorem totalsOf_keys {clfAll : String → Scores} {t : String}
    (h : ∀ c ∈ splitText t 300, ∀ p ∈ clfAll c, p.1 ≠ "") :
    ∀ k ∈ keysOf (totalsOf clfAll t), k ≠ "" := by
  intro k hk
  obtain ⟨it, hit, hkit⟩ := mem_keysOf_aggregate hk
  obtain ⟨c, hc, rfl⟩ := List.mem_map.mp hit
  simp only [keysOf] at hkit
  obtain ⟨p, hp, rfl⟩ := List.mem_map.mp hkit
  exact h c hc p hp

theorem sumVals_totalsOf (clfAll : String → Scores) (t : String)
    (h1 : ∀ c ∈ splitText t 300, sumVals (clfAll c) = 1) :
    sumVals (totalsOf clfAll t) = ((splitText t 300).length : ℚ) := by
  rw [totalsOf, sumVals_aggregate, List.map_map]
  exact sum_map_one _ _ (fun c hc => h1 c hc)

theorem sumVals_totalsOf_pos (clfAll : String → Scores) (t : String)
    (h1 : ∀ c ∈ splitText t 300, sumVals (clfAll c) = 1) :
    0 < sumVals (totalsOf clfAll t) := by
  rw [sumVals_totalsOf clfAll t h1]
  have hlen : 0 < (splitText t 300).length :=
    List.length_pos.mpr (splitText_ne_nil t 300)
  exact_mod_cast hlen

theorem totalsOf_ne_nil (clfAll : String → Scores) (t : String)
    (h1 : ∀ c ∈ splitText t 300, sumVals (clfAll c) = 1) :
    totalsOf clfAll t ≠ [] := by
  intro h
  have hpos := sumVals_totalsOf_pos clfAll t h1
  rw [h] at hpos
  simp [sumVals] at hpos

theorem totalSumOf_eq (clfAll : String → Scores) (t : String)
    (h : sumVals (totalsOf clfAll t) ≠ 0) :
    totalSumOf clfAll t = sumVals (totalsOf clfAll t) := by
  simp [totalSumOf, h]

theorem totalSumOf_pos (clfAll : String → Scores) (t : String)
    (h : ∀ q ∈ totalsOf clfAll t, 0 ≤ q.2) : 0 < totalSumOf clfAll t := by
  unfold totalSumOf
  split
  · norm_num
  · next hne => exact lt_of_le_of_ne (sumVals_nonneg h) (Ne.symm hne)

theorem sumVals_le_totalSumOf (clfAll : String → Scores) (t : String) :
    sumVals (totalsOf clfAll t) ≤ totalSumOf clfAll t := by
  unfold totalSumOf
  split
  · next h0 => rw [h0]; norm_num
  · exact le_refl _

theorem sumVals_probsOf_le_one (clfAll : String → Scores) (t : String)
    (_h : ∀ q ∈ totalsOf clfAll t, 0 ≤ q.2) :
    sumVals (probsOf clfAll t) ≤ 1 := by
  rw [probsOf, sumVals_map_scale]
  unfold totalSumOf
  split
  · next h0 => rw [h0]; norm_num
  · next h0 => rw [div_self h0]

theorem probsOf_nonneg {clfAll : String → Scores} {t : String}
    (h : ∀ q ∈ totalsOf clfAll t, 0 ≤ q.2) :
    ∀ q ∈ probsOf clfAll t, 0 ≤ q.2 := by
  have hS : 0 ≤ totalSumOf clfAll t := le_of_lt (totalSumOf_pos clfAll t h)
  intro q hq
  rw [probsOf] at hq
  exact map_scale_nonneg h hS q hq

theorem pws_bounds {clfAll : String → Scores} {text : String}
    (hAll : ∀ c, ∀ p ∈ clfAll c, 0 ≤ p.2 ∧ p.1 ≠ "") :
    ∀ r, predict_with_scores clfAll text = some r →
      0 ≤ r.2.1 ∧ r.2.1 ≤ 1 ∧ r.1 ≠ "" := by
  intro r hr
  by_cases ht : pyStrip text = ""
  · simp only [predict_with_scores, if_pos ht, Option.some.injEq] at hr
    subst hr
    refine ⟨by norm_num, by norm_num, by decide⟩
  · by_cases hp : probsOf clfAll (pyStrip text) = []
    · simp [predict_with_scores, ht, hp] at hr
    · simp only [predict_with_scores, if_neg ht, if_neg hp, Option.some.injEq] at hr
      subst hr
      have hnn : ∀ q ∈ totalsOf clfAll (pyStrip text), 0 ≤ q.2 :=
        totalsOf_nonneg (fun c _ p hp2 => (hAll c p hp2).1)
      have hpnn : ∀ q ∈ probsOf clfAll (pyStrip text), 0 ≤ q.2 := probsOf_nonneg hnn
      have hmem := maxBySnd_mem hp
      refine ⟨hpnn _ hmem, ?_, ?_⟩
      · exact le_trans (mem_le_sumVals hpnn hmem)
          (sumVals_probsOf_le_one _ _ hnn)
      · have hk : (maxBySnd (probsOf clfAll (pyStrip text))).1
            ∈ keysOf (probsOf clfAll (pyStrip text)) :=
          List.mem_map_of_mem _ hmem
        rw [probsOf, keysOf_map_scale] at hk
        exact totalsOf_keys (fun c _ p hp2 => (hAll c p hp2).2) _ hk

theorem predict_bounds {clfTop : String → String × ℚ} {clfAll : String → Scores}
    {text : String}
    (hTop : ∀ c, 0 ≤ (clfTop c).2 ∧ (clfTop c).2 ≤ 1 ∧ (clfTop c).1 ≠ "")
    (hAll : ∀ c, ∀ p ∈ clfAll c, 0 ≤ p.2 ∧ p.1 ≠ "") :
    0 ≤ (predict clfTop clfAll text).2 ∧ (predict clfTop clfAll text).2 ≤ 1 ∧
      (predict clfTop clfAll text).1 ≠ "" := by
  by_cases ht : pyStrip text = ""
  · refine ⟨?_, ?_, ?_⟩ <;> simp [predict, ht] <;> norm_num
  · by_cases hcond : (splitText (pyStrip text) 300).length = 1 ∧
        ((splitText (pyStrip text) 300).headI).length ≤ 300
    · have hres : predict clfTop clfAll text
          = clfTop ((splitText (pyStrip text) 300).headI) := by
        simp [predict, ht, hcond]
      rw [hres]
      exact hTop _
    · by_cases htot : totalsOf clfAll (pyStrip text) = []
      · refine ⟨?_, ?_, ?_⟩ <;> simp [predict, ht, hcond, htot] <;> norm_num
      · have hres : predict clfTop clfAll text
            = ((maxBySnd (totalsOf clfAll (pyStrip text))).1,
               (maxBySnd (totalsOf clfAll (pyStrip text))).2
                 / totalSumOf clfAll (pyStrip text)) := by
          simp [predict, ht, hcond, htot]
        rw [hres]
        have hnn : ∀ q ∈ totalsOf clfAll (pyStrip text), 0 ≤ q.2 :=
          totalsOf_nonneg (fun c _ p hp2 => (hAll c p hp2).1)
        have hmem := maxBySnd_mem htot
        have hS : 0 < totalSumOf clfAll (pyStrip text) := totalSumOf_pos _ _ hnn
        refine ⟨div_nonneg (hnn _ hmem) (le_of_lt hS), ?_, ?_⟩
        · exact (div_le_one hS).mpr
            (le_trans (mem_le_sumVals hnn hmem) (sumVals_le_totalSumOf _ _))
        · have hk : (maxBySnd (totalsOf clfAll (pyStrip text))).1
              ∈ keysOf (totalsOf clfAll (pyStrip text)) :=
            List.mem_map_of_mem _ hmem
          exact totalsOf_keys (fun c _ p hp2 => (hAll c p hp2).2) _ hk

/- ## Claim theorems -/

/-- C1: for every non-empty (non-whitespace-only) text, provided the
underlying classifier returns a probability list for each chunk (non-negative
scores summing to 1), `predict_with_scores` succeeds and returns a
distribution summing exactly to 1 whose argmax is the returned label, with
the returned confidence equal to that label's probability in the
distribution. -/
theorem predict_with_scores_distribution (clfAll : String → Scores) (text : String)
    (ht : pyStrip text ≠ "")
    (hclf : ∀ c ∈ splitText (pyStrip text) 300,
      sumVals (clfAll c) = 1 ∧ ∀ p ∈ clfAll c, 0 ≤ p.2) :
    ∃ bl bs probs,
      predict_with_scores clfAll text = some (bl, bs, probs) ∧
      sumVals probs = 1 ∧
      (∀ q ∈ probs, q.2 ≤ bs) ∧
      lookupQ probs bl = some bs := by
  have h1 : ∀ c ∈ splitText (pyStrip text) 300, sumVals (clfAll c) = 1 :=
    fun c hc => (hclf c hc).1
  have hSne : sumVals (totalsOf clfAll (pyStrip text)) ≠ 0 :=
    ne_of_gt (sumVals_totalsOf_pos clfAll (pyStrip text) h1)
  have hTS : totalSumOf clfAll (pyStrip text)
      = sumVals (totalsOf clfAll (pyStrip text)) :=
    totalSumOf_eq clfAll (pyStrip text) hSne
  have htne : totalsOf clfAll (pyStrip text) ≠ [] :=
    totalsOf_ne_nil clfAll (pyStrip text) h1
  have hpne : probsOf clfAll (pyStrip text) ≠ [] := by
    simp [probsOf, List.map_eq_nil_iff]
    exact htne
  refine ⟨(maxBySnd (probsOf clfAll (pyStrip text))).1,
    (maxBySnd (probsOf clfAll (pyStrip text))).2,
    probsOf clfAll (pyStrip text), ?_, ?_, ?_, ?_⟩
  · simp [predict_with_scores, ht, hpne]
  · rw [probsOf, sumVals_map_scale, hTS, div_self hSne]
  · intro q hq
    exact maxBySnd_ge hq
  · have hnodup : (keysOf (probsOf clfAll (pyStrip text))).Nodup := by
      rw [probsOf, keysOf_map_scale]
      exact nodup_keys_aggregate _
    exact lookupQ_eq_some hnodup (maxBySnd_mem hpne)

/-- Witness for C1 at the input "hi" with a one-label classifier. -/
theorem predict_with_scores_distribution_witness :
    pyStrip "hi" ≠ "" ∧
      ∃ bl bs probs,
        predict_with_scores (fun _ => [("joy", 1)]) "hi" = some (bl, bs, probs) ∧
        sumVals probs = 1 ∧
        (∀ q ∈ probs, q.2 ≤ bs) ∧
        lookupQ probs bl = some bs :=
  ⟨by decide,
   predict_with_scores_distribution (fun _ => [("joy", 1)]) "hi" (by decide)
     (by
       intro c hc
       refine ⟨by simp [sumVals], ?_⟩
       intro p hp
       simp only [List.mem_singleton] at hp
       simp [hp])⟩

/-- C2: `predict` chunks the stripped text with max_len 300; if exactly one
chunk of at most 300 characters results it returns the model's top
label/score for that chunk verbatim; otherwise (given per-chunk probability
outputs) the aggregated totals sum each label's score across all chunks, and
`predict` returns a maximal-total label with its total normalized by the sum
of all totals as confidence. -/
theorem predict_chunk_aggregation (clfTop : String → String × ℚ)
    (clfAll : String → Scores) (text : String)
    (ht : pyStrip text ≠ "")
    (hclf : ∀ c ∈ splitText (pyStrip text) 300,
      sumVals (clfAll c) = 1 ∧ ∀ p ∈ clfAll c, 0 ≤ p.2) :
    ((splitText (pyStrip text) 300).length = 1 ∧
        ((splitText (pyStrip text) 300).headI).length ≤ 300 →
      predict clfTop clfAll text = clfTop ((splitText (pyStrip text) 300).headI)) ∧
    (¬((splitText (pyStrip text) 300).length = 1 ∧
        ((splitText (pyStrip text) 300).headI).length ≤ 300) →
      (∀ k, getQ (totalsOf clfAll (pyStrip text)) k
          = ((splitText (pyStrip text) 300).map (fun c => sumKey (clfAll c) k)).sum) ∧
      ∃ bl bs,
        (bl, bs) ∈ totalsOf clfAll (pyStrip text) ∧
        (∀ q ∈ totalsOf clfAll (pyStrip text), q.2 ≤ bs) ∧
        predict clfTop clfAll text
          = (bl, bs / sumVals (totalsOf clfAll (pyStrip text)))) := by
  constructor
  · intro hcond
    simp [predict, ht, hcond]
  · intro hcond
    have h1 : ∀ c ∈ splitText (pyStrip text) 300, sumVals (clfAll c) = 1 :=
      fun c hc => (hclf c hc).1
    have hSne : sumVals (totalsOf clfAll (pyStrip text)) ≠ 0 :=
      ne_of_gt (sumVals_totalsOf_pos clfAll (pyStrip text) h1)
    have hTS : totalSumOf clfAll (pyStrip text)
        = sumVals (totalsOf clfAll (pyStrip text)) :=
      totalSumOf_eq clfAll (pyStrip text) hSne
    have htne : totalsOf clfAll (pyStrip text) ≠ [] :=
      totalsOf_ne_nil clfAll (pyStrip text) h1
    refine ⟨?_, (maxBySnd (totalsOf clfAll (pyStrip text))).1,
      (maxBySnd (totalsOf clfAll (pyStrip text))).2, ?_, ?_, ?_⟩
    · intro k
      rw [totalsOf, getQ_aggregate, List.map_map]
      rfl
    · simpa using maxBySnd_mem htne
    · intro q hq
      exact maxBySnd_ge hq
    · simp [predict, ht, hcond, htne, hTS]

/-- Witness for C2 at the single-short-chunk input "hi". -/
theorem predict_chunk_aggregation_witness :
    pyStrip "hi" ≠ "" ∧
      predict (fun _ => ("joy", 0.9)) (fun _ => [("joy", 1)]) "hi" = ("joy", 0.9) := by
  have h := predict_chunk_aggregation (fun _ => ("joy", 0.9)) (fun _ => [("joy", 1)])
    "hi" (by decide)
    (by
      intro c hc
      refine ⟨by simp [sumVals], ?_⟩
      intro p hp
      simp only [List.mem_singleton] at hp
      simp [hp])
  exact ⟨by decide, h.1 (by decide)⟩

/-- C5: whatever record the text endpoint stores (for any input text,
all-scores mode or not), its confidence lies in [0, 1] — so clamping into
[0, 1] is the identity on it — and its detected_emotion is a non-empty label
("neutral" on the empty/failed classification fallbacks), provided the
underlying classifier reports probabilities in [0, 1] with non-empty label
names.  The speech endpoint stores its record through the same two
classifier entry points applied to the cleaned transcript, so the same bound
applies to it. -/
theorem stored_log_invariant (clfTop : String → String × ℚ)
    (clfAll : String → Scores) (uid : Option String) (text : String)
    (allScores : Bool)
    (hTop : ∀ c, 0 ≤ (clfTop c).2 ∧ (clfTop c).2 ≤ 1 ∧ (clfTop c).1 ≠ "")
    (hAll : ∀ c, ∀ p ∈ clfAll c, 0 ≤ p.2 ∧ p.1 ≠ "") :
    ∀ log, predictTextLog clfTop clfAll uid text allScores = some log →
      0 ≤ log.confidence ∧ log.confidence ≤ 1 ∧ log.detected_emotion ≠ "" := by
  intro log hlog
  unfold predictTextLog at hlog
  by_cases htext : text = ""
  · simp [htext] at hlog
  · rw [if_neg htext] at hlog
    by_cases hAS : allScores = true
    · rw [if_pos hAS] at hlog
      cases hpws : predict_with_scores clfAll text with
      | none => rw [hpws] at hlog; simp at hlog
      | some r =>
        rw [hpws] at hlog
        simp only [Option.some.injEq] at hlog
        subst hlog
        exact pws_bounds hAll r hpws
    · rw [if_neg hAS] at hlog
      simp only [Option.some.injEq] at hlog
      subst hlog
      exact predict_bounds hTop hAll

/-- Witness for C5: the log stored for "hi" (single-label mode) carries
confidence 0.9 ∈ [0, 1] and the non-empty label "joy". -/
theorem stored_log_invariant_witness :
    0 ≤ (0.9 : ℚ) ∧ (0.9 : ℚ) ≤ 1 ∧ "joy" ≠ "" :=
  stored_log_invariant (fun _ => ("joy", 0.9))
    (fun _ => [("joy", 0.9), ("sadness", 0.1)]) none "hi" false
    (fun _ => ⟨by norm_num, by norm_num, by show ("joy" : String) ≠ ""; decide⟩)
    (by
      intro c p hp
      simp only [List.mem_cons, List.mem_singleton, List.not_mem_nil, or_false] at hp
      rcases hp with rfl | rfl
      · exact ⟨by norm_num, by show ("joy" : String) ≠ ""; decide⟩
      · exact ⟨by norm_num, by show ("sadness" : String) ≠ ""; decide⟩)
    ⟨none, "hi", "joy", 0.9⟩ rfl

/-- C3: the response heuristic is deterministic in (PolarityMix, most-recent
label) and evaluates its rules in the fixed precedence order no-history,
mostly-negative-history (neg ≥ 0.6), mostly-positive-history (pos ≥ 0.6),
recent-positive / recent-negative (polarity of the most recent label), mixed
(gap ≤ 0.2 and sum ≥ 0.4), neutral: the reason computed by `respond` equals
the spec's precedence-ordered rule function of exactly those inputs. -/
theorem respond_reason_precedence (docs : List Doc) :
    (respondPair docs).2 = specReason (!docs.isEmpty) (posPct docs) (negPct docs)
      (respondPolarity (docLabel docs.headI)) := by
  cases docs with
  | nil => rfl
  | cons d ds =>
    by_cases hneg : negPct (d :: ds) ≥ 0.6
    · simp [respondPair, specReason, hneg, List.isEmpty_cons]
    · by_cases hpos : posPct (d :: ds) ≥ 0.6
      · simp [respondPair, specReason, hneg, hpos, List.isEmpty_cons]
      · cases hp : respondPolarity (docLabel d) <;>
          by_cases hmix : |posPct (d :: ds) - negPct (d :: ds)| ≤ 0.2 ∧
              posPct (d :: ds) + negPct (d :: ds) ≥ 0.4 <;>
          simp [respondPair, specReason, hneg, hpos, hp, hmix, List.isEmpty_cons,
            List.headI]

/-- C4 counterexample: a log whose stored confidence is exactly 0 contributes
weight 0.5 (the Python `or 0.5` default), not its confidence clamped to
[0.2, 1.0], which would be 0.2.  So "every log contributes a weight equal to
its confidence clamped to [0.2, 1.0]" is false as stated. -/
theorem confidence_zero_not_clamped :
    docWeight ⟨some "joy", some 0⟩ = 0.5 ∧
      docWeight ⟨some "joy", some 0⟩ ≠ max 0.2 (min 0 1) := by
  constructor <;> · unfold docWeight; norm_num [max_def, min_def]

/-- C4 amended: every log with a present, non-null, nonzero confidence `c`
contributes weight `max 0.2 (min c 1)` to the history aggregation (each doc
adds exactly its weight to the running total); in particular confidence 0.05
contributes 0.2 and confidence 1.5 contributes exactly the cap 1.0.  Logs with
missing/null/zero confidence instead get the 0.5 default before clamping. -/
theorem docWeight_clamp_amended (e : Option String) (c : ℚ) (hc : c ≠ 0)
    (d : Doc) (ds : List Doc) :
    docWeight ⟨e, some c⟩ = max 0.2 (min c 1) ∧
      totalWeight (d :: ds) = docWeight d + totalWeight ds ∧
      docWeight ⟨e, some 0.05⟩ = 0.2 ∧ docWeight ⟨e, some 1.5⟩ = 1 := by
  refine ⟨?_, totalWeight_cons d ds, ?_, ?_⟩
  · simp [docWeight, hc]
  · unfold docWeight; norm_num [max_def, min_def]
  · unfold docWeight; norm_num [max_def, min_def]

/-- Witness for the amended C4 at confidence 0.9. -/
theorem docWeight_clamp_amended_witness :
    (0.9 : ℚ) ≠ 0 ∧ docWeight ⟨some "joy", some 0.9⟩ = max 0.2 (min 0.9 1) :=
  ⟨by norm_num,
   (docWeight_clamp_amended (some "joy") 0.9 (by norm_num) ⟨none, none⟩ []).1⟩

/-- C6: evaluating the transcript cleanup of `predict_speech` at the spec's
own scenario input `" uh hello  um there "` yields `"hello  there"` — with a
double space left behind by the substring replacement — not the specified
`"hello there"`; and the word `"duh"` in `"duh hello"` is corrupted to `"d"`,
contradicting "without corrupting substrings of other words". -/
theorem cleanTranscript_scenario_divergence :
    cleanTranscript " uh hello  um there " = "hello  there" ∧
      cleanTranscript " uh hello  um there " ≠ "hello there" ∧
      cleanTranscript "duh hello" = "d hello" := by
  refine ⟨?_, ?_, ?_⟩ <;> decide

/-- C7 counterexample: the label "happy" is classified positive by the
insights mix but neutral by the respond history aggregation, so the two
label-set classifications are not the same (likewise "sad"/"angry" are
negative only for insights). -/
theorem happy_polarity_differs :
    insightsPolarity "happy" = Polarity.pos ∧
      respondPolarity "happy" = Polarity.neut ∧
      insightsMixCounts [⟨some "happy", some 1⟩] = (1, 0, 0) ∧
      polarityCounts [⟨some "happy", some 1⟩] = (0, 0, 1) := by
  have hlab : insightsLabel ⟨some "happy", some 1⟩ = "happy" := by decide
  have hpos : insightsPolarity "happy" = Polarity.pos := by decide
  have hpol : respondPolarity (docLabel (⟨some "happy", some 1⟩ : Doc)) = Polarity.neut := by
    decide
  refine ⟨hpos, ?_, ?_, ?_⟩
  · decide
  · simp [insightsMixCounts, insightsCounts, List.foldl, updateAdd, hlab, hpos]
  · simp [polarityCounts, List.foldl, stepPol, hpol, docWeight]
    norm_num [max_def, min_def]

/-- C7 amended: the insights label sets are supersets of the respond sets —
they additionally count "happy" as positive and "sad"/"angry" as negative; on
every other (lower-cased) label the two classifications agree. -/
theorem insights_respond_polarity_agree (e : String)
    (h1 : e ≠ "happy") (h2 : e ≠ "sad") (h3 : e ≠ "angry") :
    insightsPolarity e = respondPolarity e := by
  unfold insightsPolarity respondPolarity insightsPositiveSet insightsNegativeSet
    positiveSet negativeSet
  simp only [List.mem_cons, List.not_mem_nil, or_false]
  split_ifs <;> first | rfl | tauto

/-- Witness for the amended C7 at the label "joy". -/
theorem insights_respond_polarity_agree_witness :
    ("joy" ≠ "happy" ∧ "joy" ≠ "sad" ∧ "joy" ≠ "angry") ∧
      insightsPolarity "joy" = respondPolarity "joy" :=
  ⟨by decide, insights_respond_polarity_agree "joy" (by decide) (by decide) (by decide)⟩

/-- C8: whenever the aggregated negative percentage is at least 0.8, `respond`
attempts the sustained-negative-affect `UserMemory` insert (and appends the
record when the store accepts it), and the write is best-effort: whether the
insert succeeds or fails, the returned response and reason are unchanged. -/
theorem respond_mood_alert (docs : List Doc) (h : negPct docs ≥ 0.8) :
    (∀ w, (respondImpl docs w).memAttempted = true) ∧
      (respondImpl docs WriteOutcome.ok).memAppended = true ∧
      (∀ w, (respondImpl docs w).response = (respondImpl docs WriteOutcome.ok).response ∧
        (respondImpl docs w).reason = (respondImpl docs WriteOutcome.ok).reason) := by
  have hne : docs ≠ [] := by
    intro hd
    rw [hd, negPct_nil] at h
    norm_num at h
  have hemp : docs.isEmpty = false := by simpa [List.isEmpty_iff] using hne
  refine ⟨?_, ?_, ?_⟩
  · intro w
    simp [respondImpl, hemp, h]
  · simp [respondImpl, hemp, h]
  · intro w
    cases w <;> simp [respondImpl, hemp]

/-- Witness for C8: a single high-confidence "anger" log pushes the negative
share to 1, the alert is appended on a successful write, and a failing write
leaves the reason unchanged. -/
theorem respond_mood_alert_witness :
    negPct [({ detected_emotion := some "anger", confidence := some 0.9 } : Doc)] ≥ 0.8 ∧
      (respondImpl [⟨some "anger", some 0.9⟩] WriteOutcome.ok).memAppended = true ∧
      (respondImpl [⟨some "anger", some 0.9⟩] WriteOutcome.fail).reason
        = (respondImpl [⟨some "anger", some 0.9⟩] WriteOutcome.ok).reason := by
  have hpol : respondPolarity (docLabel (⟨some "anger", some 0.9⟩ : Doc)) = Polarity.neg := by
    decide
  have h : negPct [({ detected_emotion := some "anger", confidence := some 0.9 } : Doc)] ≥ 0.8 := by
    simp [negPct, totalWeight, polarityCounts, List.foldl, stepPol, hpol, docWeight]
    norm_num [max_def, min_def]
  exact ⟨h, (respond_mood_alert _ h).2.1,
    ((respond_mood_alert _ h).2.2 WriteOutcome.fail).2⟩

/-- C9 counterexample: on the whitespace-only input `"  "` the chunker's
fallback returns the single chunk `"  "` — the original text verbatim — not
the trimmed text `pyStrip "  " = ""`. -/
theorem splitText_fallback_untrimmed :
    splitText "  " 300 = ["  "] ∧ splitText "  " 300 ≠ [pyStrip "  "] := by
  constructor <;> decide

/-- C9 amended: for every input (including whitespace-only strings) the
chunker returns a non-empty sequence of chunks, and when sentence splitting
and packing yield nothing it returns a single chunk containing the original
text exactly as passed (untrimmed). -/
theorem splitText_nonempty_fallback (text : String) (maxLen : ℕ) :
    splitText text maxLen ≠ [] ∧
      (buildChunks maxLen (splitSentences text) [] "" = [] →
        splitText text maxLen = [text]) := by
  refine ⟨splitText_ne_nil text maxLen, ?_⟩
  intro h
  unfold splitText
  simp [h]

/-- Witness for the amended C9 at the whitespace-only input. -/
theorem splitText_nonempty_fallback_witness :
    splitText "  " 300 ≠ [] ∧ splitText "  " 300 = ["  "] :=
  ⟨(splitText_nonempty_fallback "  " 300).1,
   (splitText_nonempty_fallback "  " 300).2 (by decide)⟩

/-- C10: in the history aggregation of `respond`, a log with missing or null
confidence and a log with confidence exactly 0 both contribute weight 0.5
(the Python `or 0.5` default substituted before clamping), not the 0.2 clamp
floor, whereas a 0.05-confidence log contributes only the 0.2 floor — so a
zero-confidence log counts strictly more; each doc's weight adds directly to
the aggregation total. -/
theorem docWeight_zero_default (e : Option String) (ds : List Doc) :
    docWeight ⟨e, none⟩ = 0.5 ∧ docWeight ⟨e, some 0⟩ = 0.5 ∧
      docWeight ⟨e, some 0.05⟩ = 0.2 ∧
      docWeight ⟨e, some 0.05⟩ < docWeight ⟨e, some 0⟩ ∧
      totalWeight (⟨e, some 0⟩ :: ds) = 0.5 + totalWeight ds := by
  have h0 : docWeight ⟨e, some 0⟩ = 0.5 := by
    unfold docWeight
    norm_num [max_def, min_def]
  refine ⟨?_, h0, ?_, ?_, ?_⟩
  · unfold docWeight
    norm_num [max_def, min_def]
  · unfold docWeight
    norm_num [max_def, min_def]
  · rw [h0]
    unfold docWeight
    norm_num [max_def, min_def]
  · rw [totalWeight_cons, h0]

end EmotionSys
